import Mathlib

/-!
Verification of the `Queue<T>` component of the BoschExercise repository
(`src/queue.h`), against its natural-language specification.

The C++ class stores elements in a raw block obtained from `operator new`,
tracks `m_filled` live slots at the front, and compacts by shifting on every
pop and on every push-when-full.  We embed the program shallowly:

* memory is a bump-allocated heap `Heap α` with integer addresses, so pointer
  arithmetic (`m_data + i`, including the out-of-range `m_data - 1` that the
  source can produce) is represented exactly;
* the `Queue` object is its three data members (`m_data` is the base address
  of the allocated block, `m_filled` and `m_capacity` are C++ `int`s, modelled
  as `ℤ`);
* the element-shifting `for` loops are embedded as fuel-indexed recursions
  whose fuel is exactly the number of iterations the C++ loop performs;
* the condition-variable waits are specialised to the single-threaded
  situation the claims quantify over (no concurrent producer during the call):
  `cv.wait` on an empty queue never returns (modelled as `Option.none`), and
  `cv.wait_for`'s predicate result is `m_filled != 0` evaluated at entry;
* the `std::system_error` thrown by `popWithTimeout` is an explicit error
  value carrying the error code and message the source constructs.
-/

namespace BoschQueue

/-- Raw process memory (one cell per `T` object) together with a bump
allocator: `operator new` returns the current `next` address and advances it
by the size of the requested block. -/
structure Heap (α : Type) where
  mem : ℤ → α
  next : ℤ

/-- A single store `*(p) = v` (or placement-new construction) at address `a`. -/
def wr {α : Type} (m : ℤ → α) (a : ℤ) (v : α) : ℤ → α :=
  fun j => if j = a then v else m j

/-- The `Queue` object: its three data members.  `m_data` is the base address
of the block returned by `operator new(size * sizeof(T))`. -/
structure Queue where
  m_data : ℤ
  m_filled : ℤ
  m_capacity : ℤ
deriving DecidableEq

/-- `Queue(int size)`: member-initialises `m_filled()` (zero) and
`m_capacity(size)`, then allocates `size` cells without constructing them.
The fresh block starts at the allocator's `next` address; its (uninitialized)
contents are whatever `mem` already held there.  For `size < 0` the C++ request
`(size_t)(size * sizeof(T))` is astronomically large and the allocation throws;
the model clamps the reservation, and all claims about negative sizes are
settled at non-negative inputs only. -/
def Queue.construct {α : Type} (h : Heap α) (size : ℤ) : Queue × Heap α :=
  ({ m_data := h.next, m_filled := 0, m_capacity := size },
   { h with next := h.next + max size 0 })

/-- The copy loop of `Queue(const Queue &src)`:
`for (int i = 0; i < m_filled; i++) new (m_data + i) T(*(src.m_data + i));`
acting on the single memory `m`, writing the destination block at `dbase` from
the source block at `sbase`.  The fuel is the exact iteration count. -/
def copyAux {α : Type} (m : ℤ → α) (dbase sbase i fil : ℤ) : Nat → (ℤ → α)
  | 0 => m
  | n + 1 =>
    if i < fil then copyAux (wr m (dbase + i) (m (sbase + i))) dbase sbase (i + 1) fil n
    else m

/-- `Queue(const Queue &src)`: copies `m_filled` and `m_capacity`, allocates a
fresh block of `m_capacity` cells, and copy-constructs the `m_filled` live
elements into it. -/
def Queue.copyCtor {α : Type} (h : Heap α) (src : Queue) : Queue × Heap α :=
  ({ m_data := h.next, m_filled := src.m_filled, m_capacity := src.m_capacity },
   { mem := copyAux h.mem h.next src.m_data 0 src.m_filled src.m_filled.toNat,
     next := h.next + max src.m_capacity 0 })

/-- The compaction loop shared by `push` (full case), `pop` and
`popWithTimeout`: `for (int i = 1; i < m_filled; i++) *(m_data+i-1) = *(m_data+i);`
started at `i`, on the block at `base`.  The fuel is the exact iteration
count. -/
def shiftAux {α : Type} (m : ℤ → α) (base i fil : ℤ) : Nat → (ℤ → α)
  | 0 => m
  | n + 1 =>
    if i < fil then shiftAux (wr m (base + i - 1) (m (base + i))) base (i + 1) fil n
    else m

/-- The compaction loop as the source runs it: from `i = 1` while `i < fil`,
which is `(fil - 1).toNat` iterations. -/
def shiftMem {α : Type} (m : ℤ → α) (base fil : ℤ) : ℤ → α :=
  shiftAux m base 1 fil (fil - 1).toNat

/-- `void push(const T&)`.  If `m_filled < m_capacity`: placement-new the
element at `m_data + m_filled` and increment `m_filled`.  Otherwise: run the
compaction loop and assign the element to `*(m_data + m_filled - 1)`
(`m_filled` unchanged). -/
def Queue.push {α : Type} (h : Heap α) (q : Queue) (element : α) : Heap α × Queue :=
  if q.m_filled < q.m_capacity then
    ({ h with mem := wr h.mem (q.m_data + q.m_filled) element },
     { q with m_filled := q.m_filled + 1 })
  else
    ({ h with mem := wr (shiftMem h.mem q.m_data q.m_filled) (q.m_data + q.m_filled - 1) element },
     q)

/-- `T pop()`.  `cv.wait(lck, [this](){ return m_filled != 0; })`: with no
concurrent producer, a call on an empty queue never returns — modelled as
`none`.  Otherwise: read `popped = *m_data`, run the compaction loop, call
`(m_data + m_filled)->~T()` (a destructor call does not change the raw bytes
of this model's memory; its address operand is recorded by
`Queue.popDestroyAddr` below), and decrement `m_filled`. -/
def Queue.pop {α : Type} (h : Heap α) (q : Queue) : Option (α × Heap α × Queue) :=
  if q.m_filled ≠ 0 then
    some (h.mem q.m_data,
          { h with mem := shiftMem h.mem q.m_data q.m_filled },
          { q with m_filled := q.m_filled - 1 })
  else
    none

/-- The address operand of the destructor call `(m_data + m_filled)->~T()`
performed by `pop` and by `popWithTimeout` after their compaction loop and
before `m_filled -= 1` (the loop does not modify `m_filled`, so the operand
uses the entry value of `m_filled`). -/
def Queue.popDestroyAddr (q : Queue) : ℤ :=
  q.m_data + q.m_filled

/-- The error codes a `Queue` operation can attach to a thrown
`std::system_error`; the source constructs exactly one,
`std::errc::operation_would_block`. -/
inductive Errc where
  | operation_would_block
deriving DecidableEq

/-- The `std::system_error` value thrown by `popWithTimeout`. -/
structure SystemError where
  code : Errc
  msg : String
deriving DecidableEq

/-- `T popWithTimeout(int milliseconds_val)`.  With no concurrent producer
during the wait, `cv.wait_for(lck, ms, pred)` returns the value of
`m_filled != 0` at entry.  If false, the source throws
`std::system_error(std::errc::operation_would_block, "Queue: pop() timeout")`
before touching any member, so heap and queue are returned unchanged.
Otherwise the removal code is the same as `pop`'s. -/
def Queue.popWithTimeout {α : Type} (h : Heap α) (q : Queue) (milliseconds_val : ℤ) :
    Except SystemError α × Heap α × Queue :=
  if q.m_filled ≠ 0 then
    (Except.ok (h.mem q.m_data),
     { h with mem := shiftMem h.mem q.m_data q.m_filled },
     { q with m_filled := q.m_filled - 1 })
  else
    (Except.error { code := Errc.operation_would_block, msg := "Queue: pop() timeout" },
     h, q)

/-- `int count() const`. -/
def Queue.count (q : Queue) : ℤ := q.m_filled

/-- `int size() const`. -/
def Queue.size (q : Queue) : ℤ := q.m_capacity

/-- `const T *data() const`: returns the raw pointer `m_data`. -/
def Queue.data (q : Queue) : ℤ := q.m_data

/-- Reading through the accessor: `*(q.data() + i)`, as the test suite does. -/
def Queue.inspect {α : Type} (h : Heap α) (q : Queue) (i : ℤ) : α :=
  h.mem (q.data + i)

/-- The observable live elements, oldest first: `*(q.data() + i)` for
`0 <= i < q.count()`, exactly the view the test suite extracts. -/
def Queue.contents {α : Type} (h : Heap α) (q : Queue) : List α :=
  (List.range q.m_filled.toNat).map (fun i : ℕ => h.mem (q.m_data + (i : ℤ)))

/-- Pushing a whole list, left to right. -/
def Queue.pushAll {α : Type} (h : Heap α) (q : Queue) : List α → Heap α × Queue
  | [] => (h, q)
  | x :: xs =>
    Queue.pushAll (Queue.push h q x).1 (Queue.push h q x).2 xs

/-- Popping `n` times in sequence, collecting the returned values (stopping
if a pop would block). -/
def popAllAux {α : Type} (h : Heap α) (q : Queue) : Nat → List α
  | 0 => []
  | n + 1 =>
    match Queue.pop h q with
    | some r => r.1 :: popAllAux r.2.1 r.2.2 n
    | none => []

/-- Popping until the queue is empty, collecting the returned values. -/
def Queue.popAll {α : Type} (h : Heap α) (q : Queue) : List α :=
  popAllAux h q q.m_filled.toNat

/-- A public operation of the component (the calls the claims quantify
over). -/
inductive Op (α : Type) where
  | push (x : α)
  | pop
  | popWithTimeout (ms : ℤ)

/-- One observable call: a `pop` that would block (empty queue, no producer)
leaves the state unchanged — the call simply has not completed, and a timed-out
`popWithTimeout` throws before mutating anything. -/
def stepOp {α : Type} (s : Heap α × Queue) : Op α → Heap α × Queue
  | Op.push x => Queue.push s.1 s.2 x
  | Op.pop =>
    match Queue.pop s.1 s.2 with
    | some r => r.2
    | none => s
  | Op.popWithTimeout ms => (Queue.popWithTimeout s.1 s.2 ms).2

/-- Running a sequence of public operations. -/
def runOps {α : Type} (s : Heap α × Queue) : List (Op α) → Heap α × Queue
  | [] => s
  | op :: ops => runOps (stepOp s op) ops

/-! ### Closed forms for the two loops -/

/-- Effect of the compaction loop on every address, when run with its exact
fuel: cells from `base + i - 1` up to `base + fil - 2` receive the value of
the next cell; every other cell is untouched.  (Each iteration writes below
the cell it reads, so the loop reads only original values.) -/
theorem shiftAux_apply {α : Type} (fil : ℤ) :
    ∀ (n : Nat) (m : ℤ → α) (base i a : ℤ), n = (fil - i).toNat →
      shiftAux m base i fil n a =
        if base + i - 1 ≤ a ∧ a ≤ base + fil - 2 then m (a + 1) else m a := by
  intro n
  induction n with
  | zero =>
    intro m base i a hn
    simp only [shiftAux]
    rw [if_neg]
    omega
  | succ n ih =>
    intro m base i a hn
    have hi : i < fil := by omega
    simp only [shiftAux, if_pos hi]
    rw [ih (wr m (base + i - 1) (m (base + i))) base (i + 1) a (by omega)]
    simp only [wr]
    split_ifs <;> first | rfl | (congr 1; omega)

/-- Effect of the whole compaction loop as `push`/`pop` run it. -/
theorem shiftMem_apply {α : Type} (m : ℤ → α) (base fil a : ℤ) :
    shiftMem m base fil a =
      if base ≤ a ∧ a ≤ base + fil - 2 then m (a + 1) else m a := by
  have h := shiftAux_apply fil ((fil - 1).toNat) m base 1 a (by omega)
  simpa [shiftMem] using h

/-- Effect of the copy loop on every address, when the destination block lies
entirely above the source block (which the bump allocator guarantees): the
destination cells receive the corresponding source values and everything else
is untouched. -/
theorem copyAux_apply {α : Type} (fil : ℤ) :
    ∀ (n : Nat) (m : ℤ → α) (dbase sbase i a : ℤ),
      n = (fil - i).toNat → 0 ≤ i → sbase + fil ≤ dbase →
      copyAux m dbase sbase i fil n a =
        if dbase + i ≤ a ∧ a ≤ dbase + fil - 1 then m (sbase + (a - dbase)) else m a := by
  intro n
  induction n with
  | zero =>
    intro m dbase sbase i a hn hi hdisj
    simp only [copyAux]
    rw [if_neg]
    omega
  | succ n ih =>
    intro m dbase sbase i a hn hi hdisj
    have hifil : i < fil := by omega
    simp only [copyAux, if_pos hifil]
    rw [ih (wr m (dbase + i) (m (sbase + i))) dbase sbase (i + 1) a (by omega) (by omega) hdisj]
    simp only [wr]
    split_ifs <;> first | rfl | (congr 1; omega)

/-! ### Field bookkeeping -/

theorem push_m_data {α : Type} (h : Heap α) (q : Queue) (x : α) :
    (Queue.push h q x).2.m_data = q.m_data := by
  unfold Queue.push
  split <;> rfl

theorem push_m_capacity {α : Type} (h : Heap α) (q : Queue) (x : α) :
    (Queue.push h q x).2.m_capacity = q.m_capacity := by
  unfold Queue.push
  split <;> rfl

theorem push_m_filled {α : Type} (h : Heap α) (q : Queue) (x : α) :
    (Queue.push h q x).2.m_filled =
      if q.m_filled < q.m_capacity then q.m_filled + 1 else q.m_filled := by
  unfold Queue.push
  split <;> simp_all

theorem push_next {α : Type} (h : Heap α) (q : Queue) (x : α) :
    (Queue.push h q x).1.next = h.next := by
  unfold Queue.push
  split <;> rfl

/-- Addresses strictly below `m_data - 1` or at/above `m_data + m_capacity`
are never written by `push` (the full branch can write at `m_data - 1`, see
the capacity-0 analysis below, but never lower and never at/above the end of
the block). -/
theorem push_mem_outside {α : Type} (h : Heap α) (q : Queue) (x : α) (a : ℤ)
    (hfil : 0 ≤ q.m_filled) (hcap : q.m_filled ≤ q.m_capacity)
    (ha : a < q.m_data - 1 ∨ q.m_data + q.m_capacity ≤ a) :
    (Queue.push h q x).1.mem a = h.mem a := by
  unfold Queue.push
  split
  · simp only [wr]
    rw [if_neg]
    omega
  · simp only [wr]
    rw [if_neg (by omega), shiftMem_apply, if_neg (by omega)]

/-! ### How the operations transform the observable contents -/

theorem contents_length {α : Type} (h : Heap α) (q : Queue) :
    (Queue.contents h q).length = q.m_filled.toNat := by
  simp [Queue.contents]

theorem contents_of_nonpos {α : Type} (h : Heap α) (q : Queue) (hf : q.m_filled ≤ 0) :
    Queue.contents h q = [] := by
  have : q.m_filled.toNat = 0 := by omega
  simp [Queue.contents, this]

/-- The tail of the live view, re-indexed from 0. -/
theorem contents_drop_one {α : Type} (h : Heap α) (q : Queue) (k : Nat)
    (hk : q.m_filled.toNat = k + 1) :
    (Queue.contents h q).drop 1 =
      (List.range k).map (fun i : ℕ => h.mem (q.m_data + (i : ℤ) + 1)) := by
  simp only [Queue.contents, hk, List.range_succ_eq_map, List.map_cons, List.map_map,
    List.drop_succ_cons, List.drop_zero]
  apply List.map_congr_left
  intro i _
  simp only [Function.comp_apply]
  congr 1
  push_cast
  ring

/-- A non-empty live view starts with the cell at `m_data`. -/
theorem contents_eq_cons {α : Type} (h : Heap α) (q : Queue) (hf : 0 < q.m_filled) :
    Queue.contents h q = h.mem q.m_data :: (Queue.contents h q).drop 1 := by
  obtain ⟨k, hk⟩ : ∃ k, q.m_filled.toNat = k + 1 := ⟨q.m_filled.toNat - 1, by omega⟩
  rw [contents_drop_one h q k hk]
  simp only [Queue.contents, hk, List.range_succ_eq_map, List.map_cons, List.map_map,
    Nat.cast_zero, add_zero]
  congr 1
  apply List.map_congr_left
  intro i _
  simp only [Function.comp_apply]
  congr 1
  push_cast
  ring

/-- `push` on a non-full queue appends the element to the live view. -/
theorem contents_push_lt {α : Type} (h : Heap α) (q : Queue) (x : α)
    (h0 : 0 ≤ q.m_filled) (hlt : q.m_filled < q.m_capacity) :
    Queue.contents (Queue.push h q x).1 (Queue.push h q x).2 =
      Queue.contents h q ++ [x] := by
  have hfn : (q.m_filled + 1).toNat = q.m_filled.toNat + 1 := by omega
  simp only [Queue.push, if_pos hlt, Queue.contents, hfn, List.range_succ, List.map_append,
    List.map_cons, List.map_nil]
  congr 1
  · apply List.map_congr_left
    intro i hi
    rw [List.mem_range] at hi
    simp only [wr]
    rw [if_neg (by omega)]
  · simp only [wr]
    rw [if_pos (by omega)]

/-- `push` on a full queue with at least one element shifts the oldest element
out and writes the new element into the last slot. -/
theorem contents_push_full {α : Type} (h : Heap α) (q : Queue) (x : α)
    (h1 : 1 ≤ q.m_filled) (hge : ¬ q.m_filled < q.m_capacity) :
    Queue.contents (Queue.push h q x).1 (Queue.push h q x).2 =
      (Queue.contents h q).drop 1 ++ [x] := by
  obtain ⟨k, hk⟩ : ∃ k, q.m_filled.toNat = k + 1 := ⟨q.m_filled.toNat - 1, by omega⟩
  rw [contents_drop_one h q k hk]
  simp only [Queue.push, if_neg hge, Queue.contents, hk, List.range_succ, List.map_append,
    List.map_cons, List.map_nil]
  congr 1
  · apply List.map_congr_left
    intro i hi
    rw [List.mem_range] at hi
    simp only [wr]
    rw [if_neg (by omega), shiftMem_apply, if_pos (by constructor <;> omega)]
  · simp only [wr]
    rw [if_pos (by omega)]

/-- `pop` on a non-empty queue, spelled out. -/
theorem pop_eq_some {α : Type} (h : Heap α) (q : Queue) (hf : 0 < q.m_filled) :
    Queue.pop h q = some (h.mem q.m_data,
      { h with mem := shiftMem h.mem q.m_data q.m_filled },
      { q with m_filled := q.m_filled - 1 }) := by
  simp [Queue.pop, show q.m_filled ≠ 0 by omega]

/-- After `pop`, the live view is the tail of the previous live view. -/
theorem contents_after_pop {α : Type} (h : Heap α) (q : Queue) (hf : 0 < q.m_filled) :
    Queue.contents { h with mem := shiftMem h.mem q.m_data q.m_filled }
        { q with m_filled := q.m_filled - 1 } =
      (Queue.contents h q).drop 1 := by
  obtain ⟨k, hk⟩ : ∃ k, q.m_filled.toNat = k + 1 := ⟨q.m_filled.toNat - 1, by omega⟩
  have hk' : (q.m_filled - 1).toNat = k := by omega
  rw [contents_drop_one h q k hk]
  simp only [Queue.contents, hk']
  apply List.map_congr_left
  intro i hi
  rw [List.mem_range] at hi
  rw [shiftMem_apply, if_pos (by constructor <;> omega)]

/-! ### Sequences of pushes and pops -/

theorem push_WF {α : Type} (h : Heap α) (q : Queue) (x : α)
    (h0 : 0 ≤ q.m_filled) (h1 : q.m_filled ≤ q.m_capacity) :
    0 ≤ (Queue.push h q x).2.m_filled ∧
      (Queue.push h q x).2.m_filled ≤ (Queue.push h q x).2.m_capacity := by
  rw [push_m_filled, push_m_capacity]
  split <;> omega

theorem pushAll_m_data {α : Type} :
    ∀ (xs : List α) (h : Heap α) (q : Queue),
      (Queue.pushAll h q xs).2.m_data = q.m_data := by
  intro xs
  induction xs with
  | nil => intro h q; rfl
  | cons x xs ih =>
    intro h q
    simp only [Queue.pushAll]
    rw [ih, push_m_data]

theorem pushAll_m_capacity {α : Type} :
    ∀ (xs : List α) (h : Heap α) (q : Queue),
      (Queue.pushAll h q xs).2.m_capacity = q.m_capacity := by
  intro xs
  induction xs with
  | nil => intro h q; rfl
  | cons x xs ih =>
    intro h q
    simp only [Queue.pushAll]
    rw [ih, push_m_capacity]

theorem pushAll_WF {α : Type} :
    ∀ (xs : List α) (h : Heap α) (q : Queue),
      0 ≤ q.m_filled → q.m_filled ≤ q.m_capacity →
      0 ≤ (Queue.pushAll h q xs).2.m_filled ∧
        (Queue.pushAll h q xs).2.m_filled ≤ (Queue.pushAll h q xs).2.m_capacity := by
  intro xs
  induction xs with
  | nil => intro h q h0 h1; exact ⟨h0, h1⟩
  | cons x xs ih =>
    intro h q h0 h1
    simp only [Queue.pushAll]
    exact ih _ _ (push_WF h q x h0 h1).1 (push_WF h q x h0 h1).2

/-- The net effect of pushing a list `xs`: the live view afterwards is the
suffix of `previous live view ++ xs` that fits the capacity — every element
evicted by a push-on-full is dropped from the front, everything else is kept
in push order. -/
theorem pushAll_contents {α : Type} :
    ∀ (xs : List α) (h : Heap α) (q : Queue),
      0 ≤ q.m_filled → q.m_filled ≤ q.m_capacity →
      Queue.contents (Queue.pushAll h q xs).1 (Queue.pushAll h q xs).2 =
        (Queue.contents h q ++ xs).drop
          (q.m_filled.toNat + xs.length - q.m_capacity.toNat) := by
  intro xs
  induction xs with
  | nil =>
    intro h q h0 h1
    have hz : q.m_filled.toNat + ([] : List α).length - q.m_capacity.toNat = 0 := by
      simp only [List.length_nil]
      omega
    rw [hz]
    simp [Queue.pushAll]
  | cons x xs ih =>
    intro h q h0 h1
    simp only [Queue.pushAll]
    rw [ih _ _ (push_WF h q x h0 h1).1 (push_WF h q x h0 h1).2]
    by_cases hlt : q.m_filled < q.m_capacity
    · rw [contents_push_lt h q x h0 hlt, push_m_filled, push_m_capacity, if_pos hlt]
      have harith : (q.m_filled + 1).toNat + xs.length - q.m_capacity.toNat =
          q.m_filled.toNat + (x :: xs).length - q.m_capacity.toNat := by
        simp only [List.length_cons]
        omega
      rw [harith, List.append_assoc, List.singleton_append]
    · rw [push_m_filled, push_m_capacity, if_neg hlt]
      by_cases hz : q.m_filled = 0
      · have hcontz : Queue.contents (Queue.push h q x).1 (Queue.push h q x).2 = [] := by
          apply contents_of_nonpos
          rw [push_m_filled, if_neg hlt]
          omega
        rw [hcontz, contents_of_nonpos h q (by omega)]
        have hc0 : q.m_capacity ≤ 0 := by omega
        have e1 : q.m_filled.toNat + xs.length - q.m_capacity.toNat = xs.length := by omega
        have e2 : q.m_filled.toNat + (x :: xs).length - q.m_capacity.toNat =
            xs.length + 1 := by
          simp only [List.length_cons]
          omega
        rw [e1, e2, List.nil_append, List.nil_append, List.drop_length]
        rw [show xs.length + 1 = (x :: xs).length by simp, List.drop_length]
      · rw [contents_push_full h q x (by omega) hlt]
        have hfc : q.m_filled = q.m_capacity := by omega
        have e1 : q.m_filled.toNat + xs.length - q.m_capacity.toNat = xs.length := by omega
        have e2 : q.m_filled.toNat + (x :: xs).length - q.m_capacity.toNat =
            xs.length + 1 := by
          simp only [List.length_cons]
          omega
        rw [e1, e2]
        obtain ⟨a, t, hat⟩ : ∃ a t, Queue.contents h q = a :: t :=
          ⟨_, _, contents_eq_cons h q (by omega)⟩
        rw [hat]
        simp only [List.drop_one, List.tail_cons, List.cons_append, List.drop_succ_cons,
          List.append_assoc, List.singleton_append, List.drop_zero, List.nil_append]

/-- Popping with exactly `m_filled` rounds of fuel drains the queue and
returns precisely the live view, oldest first. -/
theorem popAllAux_eq_contents {α : Type} :
    ∀ (n : Nat) (h : Heap α) (q : Queue), n = q.m_filled.toNat →
      popAllAux h q n = Queue.contents h q := by
  intro n
  induction n with
  | zero =>
    intro h q hn
    rw [contents_of_nonpos h q (by omega)]
    rfl
  | succ n ih =>
    intro h q hn
    have hf : 0 < q.m_filled := by omega
    simp only [popAllAux, pop_eq_some h q hf]
    rw [ih _ _ (by simp only [Queue.m_filled]; omega), contents_after_pop h q hf]
    exact (contents_eq_cons h q hf).symm

theorem popAll_eq_contents {α : Type} (h : Heap α) (q : Queue) :
    Queue.popAll h q = Queue.contents h q :=
  popAllAux_eq_contents q.m_filled.toNat h q rfl

/-- A whole list of pushes only ever writes inside (or one cell below) the
queue's own block. -/
theorem pushAll_mem_outside {α : Type} :
    ∀ (xs : List α) (h : Heap α) (q : Queue) (a : ℤ),
      0 ≤ q.m_filled → q.m_filled ≤ q.m_capacity →
      (a < q.m_data - 1 ∨ q.m_data + q.m_capacity ≤ a) →
      (Queue.pushAll h q xs).1.mem a = h.mem a := by
  intro xs
  induction xs with
  | nil => intro h q a _ _ _; rfl
  | cons x xs ih =>
    intro h q a h0 h1 ha
    have ha' : a < (Queue.push h q x).2.m_data - 1 ∨
        (Queue.push h q x).2.m_data + (Queue.push h q x).2.m_capacity ≤ a := by
      rw [push_m_data, push_m_capacity]
      exact ha
    simp only [Queue.pushAll]
    rw [ih _ _ a (push_WF h q x h0 h1).1 (push_WF h q x h0 h1).2 ha',
      push_mem_outside h q x a h0 h1 ha]

/-! ### The claims -/

/-- A blank process memory for concrete runs. -/
def heap0 : Heap ℤ :=
  { mem := fun _ => 0, next := 0 }

/-- C1: pushing into a full queue (`count == capacity >= 1`) discards the
oldest element by shifting every remaining element one position toward index
0 and writes the element into the last slot, so the queue afterwards holds
the `capacity - 1` most recently pushed prior elements followed by the new
one, with `count` still equal to `capacity`. -/
theorem push_full_evicts_oldest {α : Type} (h : Heap α) (q : Queue) (x : α)
    (hfull : q.count = q.size) (hcap : 1 ≤ q.size) :
    Queue.contents (Queue.push h q x).1 (Queue.push h q x).2 =
      (Queue.contents h q).drop 1 ++ [x] ∧
    (Queue.push h q x).2.count = q.size := by
  simp only [Queue.count, Queue.size] at hfull hcap ⊢
  have hge : ¬ q.m_filled < q.m_capacity := by omega
  refine ⟨contents_push_full h q x (by omega) hge, ?_⟩
  rw [push_m_filled, if_neg hge]
  omega

/-- The capacity-3 queue of the overwrite-on-full test, after pushing
`1, 2, 3`. -/
def w1 : Heap ℤ × Queue :=
  Queue.pushAll (Queue.construct heap0 3).2 (Queue.construct heap0 3).1 [1, 2, 3]

/-- C1, witnessed on the test scenario: capacity 3, contents `[1,2,3]`,
push `10` gives `[2,3,10]`, pushing `25,33` afterwards gives `[10,25,33]`. -/
theorem push_full_evicts_oldest_witness :
    (w1.2.count = w1.2.size ∧ 1 ≤ w1.2.size) ∧
    Queue.contents w1.1 w1.2 = [1, 2, 3] ∧
    (Queue.contents (Queue.push w1.1 w1.2 10).1 (Queue.push w1.1 w1.2 10).2 =
        (Queue.contents w1.1 w1.2).drop 1 ++ [10] ∧
      (Queue.push w1.1 w1.2 10).2.count = w1.2.size) ∧
    Queue.contents (Queue.push w1.1 w1.2 10).1 (Queue.push w1.1 w1.2 10).2 = [2, 3, 10] ∧
    Queue.contents (Queue.pushAll w1.1 w1.2 [10, 25, 33]).1
        (Queue.pushAll w1.1 w1.2 [10, 25, 33]).2 = [10, 25, 33] :=
  ⟨⟨by decide, by decide⟩, by decide,
   push_full_evicts_oldest w1.1 w1.2 10 (by decide) (by decide),
   by decide, by decide⟩

/-- A capacity-1 queue holding the single element `7`. -/
def w2 : Heap ℤ × Queue :=
  Queue.pushAll (Queue.construct heap0 1).2 (Queue.construct heap0 1).1 [7]

/-- C2 is false of the code: on a queue with `count = 1`, the destructor call
of `pop` (line `(m_data + m_filled)->~T();`) targets the address
`m_data + count` — the first slot at/beyond the live range `[0, count)`,
an uninitialized slot — and not the vacated last live slot
`m_data + (count - 1)` that the specification prescribes. -/
theorem pop_destructor_beyond_live_range :
    w2.2.count = 1 ∧
    Queue.popDestroyAddr w2.2 = w2.2.data + w2.2.count ∧
    ¬ Queue.popDestroyAddr w2.2 < w2.2.data + w2.2.count ∧
    Queue.popDestroyAddr w2.2 ≠ w2.2.data + (w2.2.count - 1) := by
  decide

/-- C3: pushing any sequence `xs` into a freshly constructed queue and then
popping repeatedly returns exactly the retained elements in push order
(FIFO); the elements evicted by pushes-on-full are the drop-from-the-front
ones and are never returned. -/
theorem fifo_order_with_eviction {α : Type} (h : Heap α) (cap : ℤ) (hcap : 0 ≤ cap)
    (xs : List α) :
    Queue.popAll
        (Queue.pushAll (Queue.construct h cap).2 (Queue.construct h cap).1 xs).1
        (Queue.pushAll (Queue.construct h cap).2 (Queue.construct h cap).1 xs).2 =
      xs.drop (xs.length - cap.toNat) := by
  have h0 : (Queue.construct h cap).1.m_filled = 0 := rfl
  have hc : (Queue.construct h cap).1.m_capacity = cap := rfl
  rw [popAll_eq_contents,
    pushAll_contents xs _ _ (by rw [h0]) (by rw [h0, hc]; exact hcap),
    contents_of_nonpos _ _ (by rw [h0]), h0, hc]
  simp

/-- C3, witnessed on the FIFO test: capacity 3, push `[1,2,3]`, pop three
times, results `1, 2, 3` in order. -/
theorem fifo_order_with_eviction_witness :
    (0 : ℤ) ≤ 3 ∧
    Queue.popAll
        (Queue.pushAll (Queue.construct heap0 3).2 (Queue.construct heap0 3).1 [1, 2, 3]).1
        (Queue.pushAll (Queue.construct heap0 3).2 (Queue.construct heap0 3).1 [1, 2, 3]).2 =
      [1, 2, 3].drop ([1, 2, 3].length - (3 : ℤ).toNat) ∧
    Queue.popAll
        (Queue.pushAll (Queue.construct heap0 3).2 (Queue.construct heap0 3).1 [1, 2, 3]).1
        (Queue.pushAll (Queue.construct heap0 3).2 (Queue.construct heap0 3).1 [1, 2, 3]).2 =
      [1, 2, 3] :=
  ⟨by decide, fifo_order_with_eviction heap0 3 (by decide) [1, 2, 3], by decide⟩

/-- C4: `popWithTimeout` on an empty queue with no push during the wait
signals the one designed failure — a thrown `std::system_error` with code
`operation_would_block`, carrying no element — and leaves the heap and every
member of the queue unchanged. -/
theorem popWithTimeout_empty_times_out {α : Type} (h : Heap α) (q : Queue)
    (milliseconds_val : ℤ) (hempty : q.count = 0) :
    Queue.popWithTimeout h q milliseconds_val =
      (Except.error { code := Errc.operation_would_block, msg := "Queue: pop() timeout" },
       h, q) := by
  simp only [Queue.count] at hempty
  simp [Queue.popWithTimeout, hempty]

/-- The empty capacity-2 queue of the timeout test. -/
def w4 : Queue × Heap ℤ :=
  Queue.construct heap0 2

/-- C4, witnessed on the test scenario: `Queue<int> queue(2);
queue.popWithTimeout(100);` throws, state unchanged. -/
theorem popWithTimeout_empty_times_out_witness :
    w4.1.count = 0 ∧
    Queue.popWithTimeout w4.2 w4.1 100 =
      (Except.error { code := Errc.operation_would_block, msg := "Queue: pop() timeout" },
       w4.2, w4.1) :=
  ⟨by decide, popWithTimeout_empty_times_out w4.2 w4.1 100 (by decide)⟩

/-- C5 is false of the code: the constructor performs no validation at all,
so `Queue<int>(0)` succeeds — `operator new(0)` allocates, the members are
initialised, and a fully observable queue with `capacity = 0`, `count = 0`
results; nothing rejects the non-positive capacity. -/
theorem construct_accepts_capacity_zero :
    (Queue.construct (α := ℤ) heap0 0).1.size = 0 ∧
    (Queue.construct (α := ℤ) heap0 0).1.count = 0 := by
  decide

/-- C6: whenever an element is available (`count > 0`) and the duration is
non-negative, `popWithTimeout` succeeds, returns exactly the value `pop`
would return, and leaves heap and queue in exactly the state `pop` would
leave them in. -/
theorem popWithTimeout_agrees_with_pop {α : Type} (h : Heap α) (q : Queue)
    (milliseconds_val : ℤ) (hne : 0 < q.count) (hms : 0 ≤ milliseconds_val) :
    ∃ a h' q', Queue.pop h q = some (a, h', q') ∧
      Queue.popWithTimeout h q milliseconds_val = (Except.ok a, h', q') := by
  simp only [Queue.count] at hne
  refine ⟨h.mem q.m_data, _, _, pop_eq_some h q hne, ?_⟩
  simp [Queue.popWithTimeout, show q.m_filled ≠ 0 by omega]

/-- A capacity-2 queue holding the single element `7`. -/
def w6 : Heap ℤ × Queue :=
  Queue.pushAll (Queue.construct heap0 2).2 (Queue.construct heap0 2).1 [7]

/-- C6, witnessed: a queue holding `7`, `popWithTimeout(5)` succeeds with the
same value and post-state as `pop`. -/
theorem popWithTimeout_agrees_with_pop_witness :
    0 < w6.2.count ∧ (0 : ℤ) ≤ 5 ∧
    (∃ a h' q', Queue.pop w6.1 w6.2 = some (a, h', q') ∧
      Queue.popWithTimeout w6.1 w6.2 5 = (Except.ok a, h', q')) :=
  ⟨by decide, by decide, popWithTimeout_agrees_with_pop w6.1 w6.2 5 (by decide) (by decide)⟩

theorem stepOp_WF {α : Type} (s : Heap α × Queue) (op : Op α)
    (h0 : 0 ≤ s.2.m_filled) (h1 : s.2.m_filled ≤ s.2.m_capacity) :
    0 ≤ (stepOp s op).2.m_filled ∧
      (stepOp s op).2.m_filled ≤ (stepOp s op).2.m_capacity := by
  cases op with
  | push x => exact push_WF s.1 s.2 x h0 h1
  | pop =>
    by_cases hf : s.2.m_filled = 0
    · simp only [stepOp, Queue.pop, hf]
      simp
      omega
    · simp only [stepOp, Queue.pop, if_pos hf]
      simp [hf]
      omega
  | popWithTimeout ms =>
    by_cases hf : s.2.m_filled = 0
    · simp [stepOp, Queue.popWithTimeout, hf]
      omega
    · simp [stepOp, Queue.popWithTimeout, hf]
      omega

theorem runOps_WF {α : Type} :
    ∀ (ops : List (Op α)) (s : Heap α × Queue),
      0 ≤ s.2.m_filled → s.2.m_filled ≤ s.2.m_capacity →
      0 ≤ (runOps s ops).2.m_filled ∧
        (runOps s ops).2.m_filled ≤ (runOps s ops).2.m_capacity := by
  intro ops
  induction ops with
  | nil => intro s h0 h1; exact ⟨h0, h1⟩
  | cons op ops ih =>
    intro s h0 h1
    simp only [runOps]
    exact ih _ (stepOp_WF s op h0 h1).1 (stepOp_WF s op h0 h1).2

/-- C7: starting from a queue constructed with positive capacity, after any
sequence of `push`, `pop` and `popWithTimeout` calls (a pop on an empty
queue blocks or throws without mutating), `0 <= count <= capacity` holds. -/
theorem count_capacity_invariant {α : Type} (h : Heap α) (size : ℤ) (hpos : 0 < size)
    (ops : List (Op α)) :
    0 ≤ (runOps ((Queue.construct h size).2, (Queue.construct h size).1) ops).2.count ∧
    (runOps ((Queue.construct h size).2, (Queue.construct h size).1) ops).2.count ≤
      (runOps ((Queue.construct h size).2, (Queue.construct h size).1) ops).2.size := by
  simp only [Queue.count, Queue.size]
  exact runOps_WF ops _ (by exact le_refl 0) (by exact le_of_lt hpos)

/-- An interleaving of pushes, pops and timed pops on a capacity-2 queue. -/
def w7ops : List (Op ℤ) :=
  [Op.push 1, Op.push 2, Op.push 3, Op.pop, Op.popWithTimeout 10, Op.pop,
   Op.popWithTimeout 10, Op.push 4]

/-- C7, witnessed on a concrete interleaving over a capacity-2 queue. -/
theorem count_capacity_invariant_witness :
    (0 : ℤ) < 2 ∧
    (0 ≤ (runOps ((Queue.construct (α := ℤ) heap0 2).2,
        (Queue.construct (α := ℤ) heap0 2).1) w7ops).2.count ∧
      (runOps ((Queue.construct (α := ℤ) heap0 2).2,
        (Queue.construct (α := ℤ) heap0 2).1) w7ops).2.count ≤
        (runOps ((Queue.construct (α := ℤ) heap0 2).2,
          (Queue.construct (α := ℤ) heap0 2).1) w7ops).2.size) :=
  ⟨by decide, count_capacity_invariant heap0 2 (by decide) w7ops⟩

/-- C8: the copy constructor produces a queue with the same capacity and
count and a deep copy of the live elements in the same order, into a block
the bump allocator places entirely above the source's block; pushing any
further elements into the original afterwards leaves the copy's contents
(and trivially its count and capacity) exactly the snapshot taken at copy
time. -/
theorem copy_deep_and_independent {α : Type} (h : Heap α) (q : Queue) (xs : List α)
    (h0 : 0 ≤ q.count) (h1 : q.count ≤ q.size) (h2 : q.data + q.size ≤ h.next) :
    (Queue.copyCtor h q).1.size = q.size ∧
    (Queue.copyCtor h q).1.count = q.count ∧
    Queue.contents (Queue.copyCtor h q).2 (Queue.copyCtor h q).1 = Queue.contents h q ∧
    Queue.contents (Queue.pushAll (Queue.copyCtor h q).2 q xs).1
        (Queue.copyCtor h q).1 = Queue.contents h q := by
  simp only [Queue.count, Queue.size, Queue.data] at h0 h1 h2
  have hsnap : Queue.contents (Queue.copyCtor h q).2 (Queue.copyCtor h q).1 =
      Queue.contents h q := by
    simp only [Queue.copyCtor, Queue.contents]
    apply List.map_congr_left
    intro i hi
    rw [List.mem_range] at hi
    rw [copyAux_apply q.m_filled q.m_filled.toNat h.mem h.next q.m_data 0 _
        (by omega) (by omega) (by omega)]
    rw [if_pos (by constructor <;> omega)]
    congr 1
    ring
  refine ⟨rfl, rfl, hsnap, ?_⟩
  rw [← hsnap]
  simp only [Queue.copyCtor, Queue.contents]
  apply List.map_congr_left
  intro i hi
  rw [List.mem_range] at hi
  exact pushAll_mem_outside xs _ q _ h0 h1 (Or.inr (by omega))

/-- The capacity-5 queue of the copy test, after pushing `2, 3`. -/
def w8 : Heap ℤ × Queue :=
  Queue.pushAll (Queue.construct heap0 5).2 (Queue.construct heap0 5).1 [2, 3]

/-- C8, witnessed on the test scenario: push `2,3` into a capacity-5 queue,
copy it, push four more elements into the original — the copy still reads
`[2,3]`. -/
theorem copy_deep_and_independent_witness :
    (0 ≤ w8.2.count ∧ w8.2.count ≤ w8.2.size ∧ w8.2.data + w8.2.size ≤ w8.1.next) ∧
    Queue.contents w8.1 w8.2 = [2, 3] ∧
    ((Queue.copyCtor w8.1 w8.2).1.size = w8.2.size ∧
      (Queue.copyCtor w8.1 w8.2).1.count = w8.2.count ∧
      Queue.contents (Queue.copyCtor w8.1 w8.2).2 (Queue.copyCtor w8.1 w8.2).1 =
        Queue.contents w8.1 w8.2 ∧
      Queue.contents
          (Queue.pushAll (Queue.copyCtor w8.1 w8.2).2 w8.2 [11, 12, 13, 14]).1
          (Queue.copyCtor w8.1 w8.2).1 = Queue.contents w8.1 w8.2) ∧
    Queue.contents
        (Queue.pushAll (Queue.copyCtor w8.1 w8.2).2 w8.2 [11, 12, 13, 14]).1
        (Queue.copyCtor w8.1 w8.2).1 = [2, 3] :=
  ⟨⟨by decide, by decide, by decide⟩, by decide,
   copy_deep_and_independent w8.1 w8.2 [11, 12, 13, 14] (by decide) (by decide) (by decide),
   by decide⟩

/-- C9, amended: what `data()` does guarantee — for every index inside the
live range `[0, count)`, reading through the accessor yields exactly the
corresponding live element. -/
theorem inspect_live_elements {α : Type} (h : Heap α) (q : Queue) (i : ℕ)
    (hi : i < (Queue.contents h q).length) :
    Queue.inspect h q (i : ℤ) = (Queue.contents h q).get ⟨i, hi⟩ := by
  simp [Queue.inspect, Queue.data, Queue.contents]

/-- A capacity-3 queue holding `4, 5`. -/
def w9 : Heap ℤ × Queue :=
  Queue.pushAll (Queue.construct heap0 3).2 (Queue.construct heap0 3).1 [4, 5]

/-- C9 (amended), witnessed: index 0 of a queue holding `[4,5]` reads `4`
through the accessor. -/
theorem inspect_live_elements_witness :
    0 < (Queue.contents w9.1 w9.2).length ∧
    Queue.inspect w9.1 w9.2 ((0 : ℕ) : ℤ) =
      (Queue.contents w9.1 w9.2).get ⟨0, by decide⟩ :=
  ⟨by decide, inspect_live_elements w9.1 w9.2 0 (by decide)⟩

/-- A memory whose uninitialized cells are observable (cell `a` holds `a`),
with the allocator at address 100. -/
def idheap : Heap ℤ :=
  { mem := fun a => a, next := 100 }

/-- The capacity-2 queue at base address 100 holding the single element
`7`. -/
def w9c : Heap ℤ × Queue :=
  Queue.pushAll (Queue.construct idheap 2).2 (Queue.construct idheap 2).1 [7]

/-- C9 is false as stated: `data()` returns the raw base pointer with no
bounds enforcement, so inspecting index `1 >= count` on a queue with
`count = 1` does yield a value — the content `101` of the uninitialized slot,
which is no live element (the live view is `[7]`). -/
theorem data_exposes_beyond_count :
    w9c.2.count = 1 ∧
    Queue.inspect w9c.1 w9c.2 1 = 101 ∧
    Queue.contents w9c.1 w9c.2 = [7] := by
  decide

/-- A blank memory with the allocator at address 100. -/
def w10h : Heap ℤ :=
  { mem := fun _ => 0, next := 100 }

/-- The capacity-0 queue the constructor accepts, at base address 100. -/
def w10 : Queue × Heap ℤ :=
  Queue.construct w10h 0

/-- C10 is false of the code: on the capacity-0 queue the constructor
accepts, `push(5)` takes the full branch and executes
`*(m_data + m_filled - 1) = element` with `m_filled = 0`, writing the element
at index `-1` — the cell one below the allocated block changes from `0` to
`5`. -/
theorem push_capacity_zero_writes_at_negative_index :
    w10.1.size = 0 ∧
    (Queue.push w10.2 w10.1 5).1.mem (w10.1.data - 1) = 5 ∧
    w10.2.mem (w10.1.data - 1) = 0 := by
  decide

end BoschQueue
